import Mathlib

/-!
# Verification of `json-translator` (src/main.rs)

A shallow embedding of the core of `benediktms/json-translator`:
JSON flattening/rebuilding, the `->` / `[i]` path-key scheme, the
greedy delimiter-joined batcher, the cache-consult/cache-update
protocol, and the per-batch translation adapter.

Modelling conventions:
* `serde_json::Value` is embedded as the inductive `Json`; numbers are
  carried as `Int` (no claim inspects numeric values).
* serde maps and Rust `HashMap`s are embedded as association lists
  maintained by `insertKV` (replace-or-append), which matches map
  content exactly; map iteration is modelled in insertion order.
* Rust byte lengths (`str::len`) are `String.utf8ByteSize`.
* The HTTP transport and `serde_json` body parsing are external
  collaborators: a run takes a `Provider` oracle mapping the batch
  payload to a transport failure, a non-success status, or a parsed
  (`Option Json`) response body, `none` meaning an unparseable body.
-/

/-- Embedding of `serde_json::Value`. -/
inductive Json where
  | str (s : String)
  | num (n : Int)
  | bool (b : Bool)
  | null
  | arr (elems : List Json)
  | obj (fields : List (String × Json))

mutual

/-- Boolean equality on `Json` (towards `DecidableEq`). -/
def jsonBEq : Json → Json → Bool
  | Json.str s, Json.str t => s == t
  | Json.num n, Json.num m => n == m
  | Json.bool a, Json.bool b => a == b
  | Json.null, Json.null => true
  | Json.arr xs, Json.arr ys => jsonListBEq xs ys
  | Json.obj xs, Json.obj ys => jsonFieldsBEq xs ys
  | _, _ => false

/-- Boolean equality on `List Json`. -/
def jsonListBEq : List Json → List Json → Bool
  | [], [] => true
  | x :: xs, y :: ys => jsonBEq x y && jsonListBEq xs ys
  | _, _ => false

/-- Boolean equality on `List (String × Json)`. -/
def jsonFieldsBEq : List (String × Json) → List (String × Json) → Bool
  | [], [] => true
  | (k, v) :: xs, (k', v') :: ys => k == k' && (jsonBEq v v' && jsonFieldsBEq xs ys)
  | _, _ => false

end

mutual

theorem jsonBEq_eq : ∀ a b : Json, jsonBEq a b = true → a = b
  | Json.str s, Json.str t, h => by
    simpa [jsonBEq] using h
  | Json.num n, Json.num m, h => by
    simpa [jsonBEq] using h
  | Json.bool a, Json.bool b, h => by
    simpa [jsonBEq] using h
  | Json.null, Json.null, _ => rfl
  | Json.arr xs, Json.arr ys, h => by
    rw [jsonListBEq_eq xs ys (by simpa [jsonBEq] using h)]
  | Json.obj xs, Json.obj ys, h => by
    rw [jsonFieldsBEq_eq xs ys (by simpa [jsonBEq] using h)]

theorem jsonListBEq_eq : ∀ xs ys : List Json, jsonListBEq xs ys = true → xs = ys
  | [], [], _ => rfl
  | x :: xs, y :: ys, h => by
    have h' : jsonBEq x y = true ∧ jsonListBEq xs ys = true := by
      simpa [jsonListBEq, Bool.and_eq_true] using h
    rw [jsonBEq_eq x y h'.1, jsonListBEq_eq xs ys h'.2]

theorem jsonFieldsBEq_eq :
    ∀ xs ys : List (String × Json), jsonFieldsBEq xs ys = true → xs = ys
  | [], [], _ => rfl
  | (k, v) :: xs, (k', v') :: ys, h => by
    have h' : k = k' ∧ jsonBEq v v' = true ∧ jsonFieldsBEq xs ys = true := by
      simpa [jsonFieldsBEq, Bool.and_eq_true] using h
    rw [h'.1, jsonBEq_eq v v' h'.2.1, jsonFieldsBEq_eq xs ys h'.2.2]

end

mutual

theorem jsonBEq_refl : ∀ a : Json, jsonBEq a a = true
  | Json.str _ => by simp [jsonBEq]
  | Json.num _ => by simp [jsonBEq]
  | Json.bool _ => by simp [jsonBEq]
  | Json.null => rfl
  | Json.arr xs => by simpa [jsonBEq] using jsonListBEq_refl xs
  | Json.obj xs => by simpa [jsonBEq] using jsonFieldsBEq_refl xs

theorem jsonListBEq_refl : ∀ xs : List Json, jsonListBEq xs xs = true
  | [] => rfl
  | x :: xs => by
    simp only [jsonListBEq, Bool.and_eq_true]
    exact ⟨jsonBEq_refl x, jsonListBEq_refl xs⟩

theorem jsonFieldsBEq_refl : ∀ xs : List (String × Json), jsonFieldsBEq xs xs = true
  | [] => rfl
  | (k, v) :: xs => by
    simp only [jsonFieldsBEq, Bool.and_eq_true]
    exact ⟨by simp, jsonBEq_refl v, jsonFieldsBEq_refl xs⟩

end

instance : DecidableEq Json := fun a b =>
  decidable_of_iff (jsonBEq a b = true)
    ⟨jsonBEq_eq a b, fun h => h ▸ jsonBEq_refl a⟩

/-- `HashMap::get` / serde-map lookup on an association list. -/
def lookupKV {α : Type} : List (String × α) → String → Option α
  | [], _ => none
  | (k, v) :: rest, key => if k = key then some v else lookupKV rest key

/-- `HashMap::insert` / serde-map insert: replace the value if the key is
present, otherwise append the new entry. -/
def insertKV {α : Type} : List (String × α) → String → α → List (String × α)
  | [], key, value => [(key, value)]
  | (k, v) :: rest, key, value =>
    if k = key then (k, value) :: rest else (k, v) :: insertKV rest key value

/-- `HashMap::extend`: insert every entry of the second map into the first. -/
def extendKV {α : Type} (m : List (String × α)) (m' : List (String × α)) :
    List (String × α) :=
  m'.foldl (fun acc kv => insertKV acc kv.1 kv.2) m

/-- Embedding of Rust `str::split(sep)` on character lists (`s₁` is the not
yet consumed input, `acc` the reversed chunk being accumulated).  For a
nonempty separator this is leftmost, non-overlapping splitting, exactly as
in Rust; the program only ever splits on `"->"` and on the `"::"` suffix. -/
def rustSplitAux (sep : List Char) : List Char → List Char → Nat → List (List Char)
  | [], acc, _ => [acc.reverse]
  | _ :: rest, acc, skip + 1 => rustSplitAux sep rest acc skip
  | c :: rest, acc, 0 =>
    if !sep.isEmpty && sep.isPrefixOf (c :: rest) then
      acc.reverse :: rustSplitAux sep rest [] (sep.length - 1)
    else
      rustSplitAux sep rest (c :: acc) 0

/-- Embedding of Rust `str::split(sep)` (nonempty `sep`). -/
def rustSplit (sep s : String) : List String :=
  (rustSplitAux sep.data s.data [] 0).map String.mk

/-- `format!("{}->{}", prefix, key)` with the empty-prefix special case of
`flatten_json` / `collect_values`. -/
def extendKey (p k : String) : String :=
  if p = "" then k else p ++ "->" ++ k

mutual

/-- Embedding of `flatten_json` (src/main.rs:107): walk the tree, record
every leaf under its path key.  The Rust code inserts into a `HashMap`;
since (as proved below) leaf path keys are distinct for well-formed
documents, the map content is the association list produced here. -/
def flatten_json : Json → String → List (String × Json)
  | Json.obj kvs, p => flattenObj kvs p
  | Json.arr xs, p => flattenArr xs 0 p
  | v, p => [(p, v)]

/-- Object clause of `flatten_json`: children in map iteration order. -/
def flattenObj : List (String × Json) → String → List (String × Json)
  | [], _ => []
  | (k, v) :: rest, p => flatten_json v (extendKey p k) ++ flattenObj rest p

/-- Array clause of `flatten_json`: `format!("{}[{}]", prefix, index)`. -/
def flattenArr : List Json → Nat → String → List (String × Json)
  | [], _, _ => []
  | v :: rest, i, p =>
    flatten_json v (p ++ "[" ++ Nat.repr i ++ "]") ++ flattenArr rest (i + 1) p

end

mutual

/-- Embedding of `collect_values` (src/main.rs:171): the `(path key, source
string)` pending-translation units, in traversal order. -/
def collect_values : Json → String → List (String × String)
  | Json.obj kvs, p => collectObj kvs p
  | Json.arr xs, p => collectArr xs 0 p
  | Json.str s, p => [(p, s)]
  | _, _ => []

/-- Object clause of `collect_values`. -/
def collectObj : List (String × Json) → String → List (String × String)
  | [], _ => []
  | (k, v) :: rest, p => collect_values v (extendKey p k) ++ collectObj rest p

/-- Array clause of `collect_values`. -/
def collectArr : List Json → Nat → String → List (String × String)
  | [], _, _ => []
  | v :: rest, i, p =>
    collect_values v (p ++ "[" ++ Nat.repr i ++ "]") ++ collectArr rest (i + 1) p

end

/-- Embedding of `insert_into_json` (src/main.rs:131).  In the Rust code the
`target` argument is an object `Value` at every call site (the root starts
as `json!({})`, and both recursion branches pass an object), so the
function is embedded directly over the object's field list.  A missing or
non-object intermediate child is (re)created as an empty object, exactly as
in the source. -/
def insert_into_json : List (String × Json) → List String → Json → List (String × Json)
  | target, [], _ => target
  | target, [first], value => insertKV target first value
  | target, first :: rest, value =>
    let next := match lookupKV target first with
      | some (Json.obj m) => m
      | some _ => []
      | none => []
    insertKV target first (Json.obj (insert_into_json next rest value))

/-- Embedding of `rebuild_json` (src/main.rs:160): split every flat key on
`"->"` and insert the leaf into a freshly constructed tree rooted at
`json!({})`.  The `HashMap` iteration over `flat_map` is modelled in
insertion order. -/
def rebuild_json (flat_map : List (String × Json)) : Json :=
  Json.obj (flat_map.foldl (fun m kv => insert_into_json m (rustSplit "->" kv.1) kv.2) [])

/-- Sanity: the embedded split matches Rust `str::split` on its edges. -/
theorem rustSplit_sanity :
    rustSplit "::" "a::b::" = ["a", "b", ""] ∧ rustSplit "->" "a->b" = ["a", "b"] ∧
      rustSplit "->" "" = [""] ∧ rustSplit "::" ":::" = ["", ":"] := by
  refine ⟨by decide, by decide, by decide, by decide⟩

/-- Sanity: the spec's nested-array scenario flattens to bracket keys. -/
theorem flatten_nested_array_scenario :
    flatten_json (Json.obj [("items", Json.arr [Json.str "red", Json.str "blue"])]) "" =
      [("items[0]", Json.str "red"), ("items[1]", Json.str "blue")] := by decide

/-- `BATCH_SIZE_LIMIT` (src/main.rs:15). -/
def BATCH_SIZE_LIMIT : Nat := 1500

/-- The outcome of one provider round trip, as observed by
`translate_batch`: a transport failure (of `send` or of reading the body),
a non-success HTTP status, or a successfully read body given as the result
of `serde_json::from_str` (`none` = empty or unparseable body). -/
inductive ProviderResponse where
  | transportErr
  | httpError (status : String)
  | success (parsedBody : Option Json)

/-- The external translation provider: batch payload ↦ response.  The API
key and target language are fixed for a run and absorbed into the oracle. -/
def Provider : Type := String → ProviderResponse

/-- Run-aborting errors of `translate_batch` (src/main.rs:288-303). -/
inductive TransError where
  | transport
  | provider (status : String)
  | decode
  deriving DecidableEq

/-- serde `Value` string indexing: missing key or non-object gives `Null`. -/
def Json.getKey : Json → String → Json
  | Json.obj kvs, k => (lookupKV kvs k).getD Json.null
  | _, _ => Json.null

/-- serde `Value` numeric indexing: out of range or non-array gives `Null`. -/
def Json.getIdx : Json → Nat → Json
  | Json.arr xs, i => xs.getD i Json.null
  | _, _ => Json.null

/-- serde `Value::as_str`. -/
def Json.asStr : Json → Option String
  | Json.str s => some s
  | _ => none

/-- The `all_cached` pre-check loop of `translate_batch` (src/main.rs:258-270):
walk `keys_for_batch` in order, collecting `(key, cached translation)` hits,
and stop at the first miss.  Returns the hits inserted into `translated`
before the loop ended, and whether every key was cached. -/
def cachedLead : List String → List (String × String) → List (String × String) × Bool
  | [], _ => ([], true)
  | k :: rest, cache =>
    match lookupKV cache k with
    | some t =>
      let r := cachedLead rest cache
      ((k, t) :: r.1, r.2)
    | none => ([], false)

/-- Result of one `translate_batch` call: the `translated` map it returns,
the `(key, decoded segment)` pairs obtained from the provider (ghost field,
empty on the all-cached early return), the cache after the call, and the
number of provider calls made (0 or 1; ghost field). -/
structure BatchResult where
  translated : List (String × String)
  pairs : List (String × String)
  cache : List (String × String)
  calls : Nat

/-- Embedding of `translate_batch` (src/main.rs:247).  On the non-cached
path it posts `batch` to the provider; on a success status with a parseable
body it reads `json["translations"][0]["text"]`, falling back to `batch`
itself when that is not a string (`unwrap_or(batch)`), splits on `suffix`,
zips the segments with `keys_for_batch`, and records every pair in
`translated` and in the cache — keyed by the path key. -/
def translate_batch (batch : String) (keys_for_batch : List String) (suffix : String)
    (cache : List (String × String)) (provider : Provider) :
    Except TransError BatchResult :=
  let pre := cachedLead keys_for_batch cache
  if pre.2 then
    Except.ok ⟨extendKV [] pre.1, [], cache, 0⟩
  else
    match provider batch with
    | ProviderResponse.transportErr => Except.error TransError.transport
    | ProviderResponse.httpError status => Except.error (TransError.provider status)
    | ProviderResponse.success none => Except.error TransError.decode
    | ProviderResponse.success (some body) =>
      let translated_text :=
        ((((body.getKey "translations").getIdx 0).getKey "text").asStr).getD batch
      let translated_values := rustSplit suffix translated_text
      let pairs := keys_for_batch.zip translated_values
      Except.ok ⟨extendKV (extendKV [] pre.1) pairs, pairs,
        pairs.foldl (fun c kv => insertKV c kv.1 kv.2) cache, 1⟩

/-- Result of `translate_values`: the translated path-key → string map, the
final cache, and the total number of provider calls (ghost). -/
structure TVResult where
  translated : List (String × String)
  cache : List (String × String)
  calls : Nat

/-- The loop of `translate_values` (src/main.rs:208-242), with the loop
state (`translated`, `batch`, `batch_length`, `keys_for_batch`, `cache`)
made explicit.  Each unit is first looked up in the cache by its source
string; on a miss, the current batch is flushed when appending the unit
would exceed `BATCH_SIZE_LIMIT`, and the unit is then appended. -/
def translateValuesGo (suffix : String) (provider : Provider) :
    List (String × String) → List (String × String) → String → Nat → List String →
    List (String × String) → Nat → Except TransError TVResult
  | [], translated, batch, _, keys, cache, calls =>
    if batch = "" then Except.ok ⟨translated, cache, calls⟩
    else
      match translate_batch batch keys suffix cache provider with
      | Except.error e => Except.error e
      | Except.ok r =>
        Except.ok ⟨extendKV translated r.translated, r.cache, calls + r.calls⟩
  | (key, value) :: rest, translated, batch, batch_length, keys, cache, calls =>
    match lookupKV cache value with
    | some t =>
      translateValuesGo suffix provider rest (insertKV translated key t)
        batch batch_length keys cache calls
    | none =>
      let new_length := batch_length + value.utf8ByteSize + suffix.utf8ByteSize
      if new_length > BATCH_SIZE_LIMIT then
        match translate_batch batch keys suffix cache provider with
        | Except.error e => Except.error e
        | Except.ok r =>
          translateValuesGo suffix provider rest (extendKV translated r.translated)
            (value ++ suffix) (value.utf8ByteSize + suffix.utf8ByteSize) [key]
            r.cache (calls + r.calls)
      else
        translateValuesGo suffix provider rest translated
          (batch ++ value ++ suffix) new_length (keys ++ [key]) cache calls

/-- Embedding of `translate_values` (src/main.rs:196). -/
def translate_values (values : List (String × String)) (suffix : String)
    (cache : List (String × String)) (provider : Provider) :
    Except TransError TVResult :=
  translateValuesGo suffix provider values [] "" 0 [] cache 0

/-- The pure batching logic of `translate_values` (the Batcher of the
design): the same greedy loop, run on the units that missed the cache,
recording each flushed batch as (joined payload, units in order).  Flushes
of an empty initial batch are recorded too (they are no-op calls in the
source, since `translate_batch` with no keys returns early). -/
def batchUnitsGo (suffix : String) :
    List (String × String) → String → Nat → List (String × String) →
    List (String × List (String × String))
  | [], batch, _, units => if batch = "" then [] else [(batch, units)]
  | (key, value) :: rest, batch, batch_length, units =>
    let new_length := batch_length + value.utf8ByteSize + suffix.utf8ByteSize
    if new_length > BATCH_SIZE_LIMIT then
      (batch, units) :: batchUnitsGo suffix rest (value ++ suffix)
        (value.utf8ByteSize + suffix.utf8ByteSize) [(key, value)]
    else
      batchUnitsGo suffix rest (batch ++ value ++ suffix) new_length
        (units ++ [(key, value)])

/-- The batches produced by the greedy batcher on a unit list. -/
def batchUnits (suffix : String) (units : List (String × String)) :
    List (String × List (String × String)) :=
  batchUnitsGo suffix units "" 0 []

/-- Embedding of the cache load (src/main.rs:43-46): `readResult` is the
result of `fs::read_to_string` (`none` = I/O error), `parse` is
`serde_json::from_str::<HashMap<String, String>>` (`none` = malformed).
`Ok` contents are parsed with `unwrap_or_default`; a read error yields
`HashMap::new()`. -/
def loadCache (parse : String → Option (List (String × String)))
    (readResult : Option String) : List (String × String) :=
  match readResult with
  | some contents => (parse contents).getD []
  | none => []

/-- The two files `main` writes on success: the translated document and the
final cache (plus the ghost provider-call count). -/
structure RunOutput where
  output : Json
  cacheOut : List (String × String)
  calls : Nat

/-- The update loop of `main` (src/main.rs:73-77): replace each flat-map
value whose key has a translation. -/
def mergeTranslated (flat : List (String × Json)) (translated : List (String × String)) :
    List (String × Json) :=
  flat.map fun kv =>
    match lookupKV translated kv.1 with
    | some t => (kv.1, Json.str t)
    | none => kv

/-- The `flat_map` of `main` (src/main.rs:59-60): flatten entries collected
into a `HashMap`, modelled in insertion order. -/
def buildFlatMap (doc : Json) : List (String × Json) :=
  (flatten_json doc "").foldl (fun m kv => insertKV m kv.1 kv.2) []

/-- Embedding of the `main` pipeline after config/input loading
(src/main.rs:53-89): translate, merge, rebuild, then write output and
cache.  An `Except.error` models the `?`-propagation to `main`'s error
return (nonzero process exit), in which case neither file is written. -/
def runMain (doc : Json) (cache : List (String × String)) (suffix : String)
    (provider : Provider) : Except TransError RunOutput :=
  match translate_values (collect_values doc "") suffix cache provider with
  | Except.error e => Except.error e
  | Except.ok r =>
    Except.ok ⟨rebuild_json (mergeTranslated (buildFlatMap doc) r.translated),
      r.cache, r.calls⟩

/-- A provider for the spec's flat-object scenario. -/
def scenarioProvider : Provider := fun t =>
  if t = "hello::world::" then
    ProviderResponse.success (some (Json.obj [("translations",
      Json.arr [Json.obj [("text", Json.str "bonjour::monde::")]])]))
  else ProviderResponse.transportErr

/-- Sanity (spec scenario, flat object): `{"a":"hello","b":"world"}` with the
provider answering `"bonjour::monde::"` produces `{"a":"bonjour","b":"monde"}`
in one call. -/
theorem scenario_flat_object :
    runMain (Json.obj [("a", Json.str "hello"), ("b", Json.str "world")]) [] "::"
        scenarioProvider =
      Except.ok ⟨Json.obj [("a", Json.str "bonjour"), ("b", Json.str "monde")],
        [("a", "bonjour"), ("b", "monde")], 1⟩ := by
  rfl

/-- Sanity (spec scenario, cache hit): a cache entry for the source string
is used, zero provider calls. -/
theorem scenario_cache_hit :
    runMain (Json.obj [("a", Json.str "hello")]) [("hello", "bonjour")] "::"
        (fun _ => ProviderResponse.transportErr) =
      Except.ok ⟨Json.obj [("a", Json.str "bonjour")], [("hello", "bonjour")], 0⟩ := by
  rfl

/-- Sanity (spec scenario, non-string leaves): numbers, booleans and null
pass through untouched with no provider call. -/
theorem scenario_non_string_leaves :
    runMain (Json.obj [("n", Json.num 42), ("flag", Json.bool true), ("x", Json.null)])
        [] "::" (fun _ => ProviderResponse.transportErr) =
      Except.ok ⟨Json.obj [("n", Json.num 42), ("flag", Json.bool true), ("x", Json.null)],
        [], 0⟩ := by
  rfl

/-! ## Leaf predicate and unit sizes -/

/-- A leaf `Value` (String/Number/Boolean/Null). -/
def Json.isLeaf : Json → Bool
  | Json.obj _ => false
  | Json.arr _ => false
  | _ => true

/-- The serialized size a batch's units contribute:
`len(unit.source) + len(delimiter)` summed over the batch, in bytes. -/
def unitsSize (suffix : String) (units : List (String × String)) : Nat :=
  (units.map (fun u => u.2.utf8ByteSize + suffix.utf8ByteSize)).sum

/-! ## C9: fails-soft cache load -/

/-- C9: loading the persistent cache from a missing file or from bytes that
do not parse as a string-to-string JSON object yields the empty mapping;
`loadCache` is total, so no fatal error is possible and the run proceeds
with the empty cache. -/
theorem c9_cache_load_fails_soft
    (parse : String → Option (List (String × String))) (s : String)
    (hbad : parse s = none) :
    loadCache parse (some s) = [] ∧ loadCache parse none = [] := by
  constructor
  · simp [loadCache, hbad]
  · rfl

theorem c9_cache_load_fails_soft_witness :
    loadCache (fun _ => none) (some "not a json object") = [] ∧
      loadCache (fun _ => none) none = [] :=
  c9_cache_load_fails_soft (fun _ => none) "not a json object" rfl

/-! ## C10: rebuild always returns an object root -/

/-- C10: `rebuild_json` returns a JSON object for every flattened mapping
(it folds `insert_into_json` into the object rooted at `json!({})`), and a
leaf root — flattened under the empty path key — rebuilds to an object
holding that leaf under the empty-string key. -/
theorem c10_rebuild_root_object (entries : List (String × Json)) (v : Json)
    (hleaf : v.isLeaf = true) :
    (∃ m, rebuild_json entries = Json.obj m) ∧
      rebuild_json (flatten_json v "") = Json.obj [("", v)] := by
  refine ⟨⟨_, rfl⟩, ?_⟩
  cases v with
  | str s => rfl
  | num n => rfl
  | bool b => rfl
  | null => rfl
  | arr xs => simp [Json.isLeaf] at hleaf
  | obj kvs => simp [Json.isLeaf] at hleaf

theorem c10_rebuild_root_object_witness :
    (∃ m, rebuild_json [("items[0]", Json.str "red")] = Json.obj m) ∧
      rebuild_json (flatten_json (Json.str "hi") "") =
        Json.obj [("", Json.str "hi")] :=
  c10_rebuild_root_object [("items[0]", Json.str "red")] (Json.str "hi") rfl

/-! ## C7: atomicity of run failure -/

/-- C7: if the translation phase fails (any batch's transport failure,
non-success status, or undecodable body aborts `translate_values` via `?`),
`main` propagates that error — modelled by `Except.error`, i.e. a nonzero
exit with no output or cache write — and an `Except.ok` run output exists
exactly when every batch succeeded, in which case the written output is the
rebuilt merged tree and the written cache is the final cache. -/
theorem c7_failure_atomicity (doc : Json) (cache : List (String × String))
    (suffix : String) (provider : Provider) :
    (∀ e, translate_values (collect_values doc "") suffix cache provider =
        Except.error e →
      runMain doc cache suffix provider = Except.error e) ∧
    (∀ out, runMain doc cache suffix provider = Except.ok out →
      ∃ r, translate_values (collect_values doc "") suffix cache provider =
          Except.ok r ∧
        out.output = rebuild_json (mergeTranslated (buildFlatMap doc) r.translated) ∧
        out.cacheOut = r.cache) := by
  unfold runMain
  cases h : translate_values (collect_values doc "") suffix cache provider with
  | error e =>
    refine ⟨fun e' he' => ?_, fun out hout => ?_⟩
    · cases he'; rfl
    · cases hout
  | ok r =>
    refine ⟨fun e' he' => ?_, fun out hout => ?_⟩
    · cases he'
    · refine ⟨r, rfl, ?_, ?_⟩ <;> cases hout <;> rfl

theorem c7_failure_atomicity_witness :
    runMain (Json.obj [("a", Json.str "x")]) [] "::"
        (fun _ => ProviderResponse.transportErr) =
      Except.error TransError.transport :=
  (c7_failure_atomicity (Json.obj [("a", Json.str "x")]) [] "::"
    (fun _ => ProviderResponse.transportErr)).1 TransError.transport rfl

/-! ## C5: order preservation and zip-truncated decode -/

theorem zip_get?_eq {α β : Type} :
    ∀ (as : List α) (bs : List β) (i : Nat) (a : α) (b : β),
      as.get? i = some a → bs.get? i = some b → (as.zip bs).get? i = some (a, b)
  | [], _, _, _, _, ha, _ => by simp at ha
  | _ :: _, [], _, _, _, _, hb => by simp at hb
  | a' :: as, b' :: bs, 0, a, b, ha, hb => by
    simp only [List.get?] at ha hb
    cases ha; cases hb; rfl
  | a' :: as, b' :: bs, i + 1, a, b, ha, hb => by
    simpa using zip_get?_eq as bs i a b (by simpa using ha) (by simpa using hb)

/-- C5: on the call path (not all keys cached) with a successful response
carrying a `translations[0].text` string, `translate_batch` splits the
translated payload on the delimiter and pairs the segments
position-for-position, in order, with the units fed into the batch
(`keys_for_batch`); the pairing is the zip, truncated to the shorter of the
two sequences. -/
theorem c5_order_preservation (batch : String) (keys : List String)
    (suffix : String) (cache : List (String × String)) (provider : Provider)
    (body : Json) (text : String)
    (hmiss : (cachedLead keys cache).2 = false)
    (hresp : provider batch = ProviderResponse.success (some body))
    (htext : (((body.getKey "translations").getIdx 0).getKey "text").asStr = some text) :
    ∃ r, translate_batch batch keys suffix cache provider = Except.ok r ∧
      r.pairs = keys.zip (rustSplit suffix text) ∧
      r.pairs.length = min keys.length (rustSplit suffix text).length ∧
      ∀ i k s, keys.get? i = some k → (rustSplit suffix text).get? i = some s →
        r.pairs.get? i = some (k, s) := by
  have heq : translate_batch batch keys suffix cache provider =
      Except.ok ⟨extendKV (extendKV [] (cachedLead keys cache).1)
          (keys.zip (rustSplit suffix text)),
        keys.zip (rustSplit suffix text),
        (keys.zip (rustSplit suffix text)).foldl
          (fun c kv => insertKV c kv.1 kv.2) cache, 1⟩ := by
    simp only [translate_batch, hmiss, Bool.false_eq_true, if_false, hresp, htext,
      Option.getD_some]
  exact ⟨_, heq, rfl, List.length_zip keys (rustSplit suffix text),
    fun i k s hk hs => zip_get?_eq keys (rustSplit suffix text) i k s hk hs⟩

/-- Response body for the C5 witness: a 2-segment text for a 3-unit batch. -/
def c5Body : Json :=
  Json.obj [("translations", Json.arr [Json.obj [("text", Json.str "X::Y")]])]

theorem c5_order_preservation_witness :
    ∃ r, translate_batch "a::b::c::" ["k1", "k2", "k3"] "::" []
        (fun _ => ProviderResponse.success (some c5Body)) = Except.ok r ∧
      r.pairs = (["k1", "k2", "k3"] : List String).zip (rustSplit "::" "X::Y") ∧
      r.pairs.length =
        min (["k1", "k2", "k3"] : List String).length (rustSplit "::" "X::Y").length ∧
      ∀ i k s, (["k1", "k2", "k3"] : List String).get? i = some k →
        (rustSplit "::" "X::Y").get? i = some s → r.pairs.get? i = some (k, s) :=
  c5_order_preservation "a::b::c::" ["k1", "k2", "k3"] "::" []
    (fun _ => ProviderResponse.success (some c5Body)) c5Body "X::Y" rfl rfl rfl

/-! ## C8: decode-failure surfacing (corrected) -/

/-- C8 (amended): on the call path, a transport failure, a non-success
status, and an empty-or-unparseable body each make `translate_batch` fail
with the corresponding error; but a body that parses as JSON lacking a
`translations[0].text` string does NOT fail — `unwrap_or(batch)`
substitutes the untranslated batch payload as the translated text. -/
theorem c8_decode_failure (batch : String) (keys : List String)
    (suffix : String) (cache : List (String × String)) (provider : Provider)
    (hmiss : (cachedLead keys cache).2 = false) :
    (provider batch = ProviderResponse.transportErr →
      translate_batch batch keys suffix cache provider =
        Except.error TransError.transport) ∧
    (∀ status, provider batch = ProviderResponse.httpError status →
      translate_batch batch keys suffix cache provider =
        Except.error (TransError.provider status)) ∧
    (provider batch = ProviderResponse.success none →
      translate_batch batch keys suffix cache provider =
        Except.error TransError.decode) ∧
    (∀ body, provider batch = ProviderResponse.success (some body) →
      (((body.getKey "translations").getIdx 0).getKey "text").asStr = none →
      translate_batch batch keys suffix cache provider =
        Except.ok ⟨extendKV (extendKV [] (cachedLead keys cache).1)
            (keys.zip (rustSplit suffix batch)),
          keys.zip (rustSplit suffix batch),
          (keys.zip (rustSplit suffix batch)).foldl
            (fun c kv => insertKV c kv.1 kv.2) cache, 1⟩) := by
  refine ⟨fun h => ?_, fun status h => ?_, fun h => ?_, fun body h htext => ?_⟩ <;>
    simp only [translate_batch, hmiss, Bool.false_eq_true, if_false, h]
  simp only [htext, Option.getD_none]

theorem c8_decode_failure_witness :
    translate_batch "x::" ["k"] "::" [] (fun _ => ProviderResponse.success none) =
      Except.error TransError.decode :=
  (c8_decode_failure "x::" ["k"] "::" []
    (fun _ => ProviderResponse.success none) rfl).2.2.1 rfl

/-- C8 counterexample: with a parseable body `{}` that lacks the
`translations[0].text` field, `translate_batch` does not fail: it silently
substitutes the untranslated batch payload ("hello") as the translation,
contradicting the claim that no such substitution happens. -/
theorem c8_missing_field_substitutes_source :
    translate_batch "hello::" ["a"] "::" []
        (fun _ => ProviderResponse.success (some (Json.obj []))) =
      Except.ok ⟨[("a", "hello")], [("a", "hello")], [("a", "hello")], 1⟩ := by
  rfl

/-! ## C6: batch size bound -/

theorem str_append_ne_empty (a b : String) (hb : b ≠ "") : a ++ b ≠ "" := by
  intro h
  apply hb
  have hd : a.data ++ b.data = [] := by
    have := congrArg String.data h
    simpa [String.data_append] using this
  have : b.data = [] := (List.append_eq_nil.mp hd).2
  cases b
  simp_all

theorem unitsSize_append (suffix : String) (us : List (String × String))
    (u : String × String) :
    unitsSize suffix (us ++ [u]) =
      unitsSize suffix us + (u.2.utf8ByteSize + suffix.utf8ByteSize) := by
  simp [unitsSize]

theorem batchUnitsGo_bound (suffix : String) :
    ∀ (rest : List (String × String)) (batch : String) (len : Nat)
      (units : List (String × String)),
      len = unitsSize suffix units →
      (len ≤ BATCH_SIZE_LIMIT ∨ units.length = 1) →
      ∀ b us, (b, us) ∈ batchUnitsGo suffix rest batch len units →
        (us.length = 1 ∧ BATCH_SIZE_LIMIT < unitsSize suffix us) ∨
          unitsSize suffix us ≤ BATCH_SIZE_LIMIT
  | [], batch, len, units, hlen, hinv, b, us, hmem => by
    by_cases hb : batch = ""
    · simp [batchUnitsGo, hb] at hmem
    · simp only [batchUnitsGo, hb, reduceIte, List.mem_singleton, Prod.mk.injEq] at hmem
      obtain ⟨rfl, rfl⟩ := hmem
      rcases hinv with h | h
      · exact Or.inr (hlen ▸ h)
      · by_cases hle : unitsSize suffix us ≤ BATCH_SIZE_LIMIT
        · exact Or.inr hle
        · exact Or.inl ⟨h, by omega⟩
  | (key, value) :: rest, batch, len, units, hlen, hinv, b, us, hmem => by
    simp only [batchUnitsGo] at hmem
    by_cases hflush : len + value.utf8ByteSize + suffix.utf8ByteSize > BATCH_SIZE_LIMIT
    · rw [if_pos (by omega)] at hmem
      rcases List.mem_cons.mp hmem with heq | hmem2
      · obtain ⟨rfl, rfl⟩ := Prod.mk.injEq .. ▸ heq
        rcases hinv with h | h
        · exact Or.inr (hlen ▸ h)
        · by_cases hle : unitsSize suffix us ≤ BATCH_SIZE_LIMIT
          · exact Or.inr hle
          · exact Or.inl ⟨h, by omega⟩
      · exact batchUnitsGo_bound suffix rest _ _ [(key, value)]
          (by simp [unitsSize]) (Or.inr rfl) b us hmem2
    · rw [if_neg (by omega)] at hmem
      exact batchUnitsGo_bound suffix rest _ _ (units ++ [(key, value)])
        (by simp [unitsSize_append]; omega) (Or.inl (by omega)) b us hmem

theorem batchUnitsGo_join (suffix : String) (hsuffix : suffix ≠ "") :
    ∀ (rest : List (String × String)) (batch : String) (len : Nat)
      (units : List (String × String)),
      (batch = "" → units = []) →
      ((batchUnitsGo suffix rest batch len units).map Prod.snd).flatten = units ++ rest
  | [], batch, len, units, hbu => by
    by_cases hb : batch = ""
    · simp [batchUnitsGo, hb, hbu hb]
    · simp [batchUnitsGo, hb]
  | (key, value) :: rest, batch, len, units, hbu => by
    simp only [batchUnitsGo]
    by_cases hflush : len + value.utf8ByteSize + suffix.utf8ByteSize > BATCH_SIZE_LIMIT
    · rw [if_pos (by omega)]
      have hrec := batchUnitsGo_join suffix hsuffix rest (value ++ suffix)
        (value.utf8ByteSize + suffix.utf8ByteSize) [(key, value)]
        (fun h => absurd h (str_append_ne_empty value suffix hsuffix))
      simp only [List.map_cons, List.flatten_cons, hrec]
      simp
    · rw [if_neg (by omega)]
      have hrec := batchUnitsGo_join suffix hsuffix rest (batch ++ value ++ suffix)
        (len + value.utf8ByteSize + suffix.utf8ByteSize) (units ++ [(key, value)])
        (fun h => absurd h (str_append_ne_empty (batch ++ value) suffix hsuffix))
      rw [hrec]
      simp

/-- C6: every batch produced by the greedy batcher keeps the units in input
order (their concatenation over all batches is the input unit list), and —
except for a singleton batch whose single unit alone exceeds the limit —
the sum over its units of `len(source) + len(delimiter)` (in bytes) is at
most `BATCH_SIZE_LIMIT = 1500`. -/
theorem c6_batch_size_bound (suffix : String) (units : List (String × String))
    (hsuffix : suffix ≠ "") :
    ((batchUnits suffix units).map Prod.snd).flatten = units ∧
    ∀ b us, (b, us) ∈ batchUnits suffix units →
      (us.length = 1 ∧ BATCH_SIZE_LIMIT < unitsSize suffix us) ∨
        unitsSize suffix us ≤ BATCH_SIZE_LIMIT := by
  constructor
  · simpa using batchUnitsGo_join suffix hsuffix units "" 0 [] (fun _ => rfl)
  · exact fun b us hmem =>
      batchUnitsGo_bound suffix units "" 0 [] (by simp [unitsSize]) (Or.inl (by simp))
        b us hmem

theorem c6_batch_size_bound_witness :
    ((batchUnits "::" [("a", "x"), ("b", "y")]).map Prod.snd).flatten =
        [("a", "x"), ("b", "y")] ∧
    ∀ b us, (b, us) ∈ batchUnits "::" [("a", "x"), ("b", "y")] →
      (us.length = 1 ∧ BATCH_SIZE_LIMIT < unitsSize "::" us) ∨
        unitsSize "::" us ≤ BATCH_SIZE_LIMIT :=
  c6_batch_size_bound "::" [("a", "x"), ("b", "y")] (by decide)

/-! ## C1: the cache is keyed by the path key, not the source string -/

/-- Provider used for the C1 failing input. -/
def c1Provider : Provider := fun t =>
  if t = "hello::" then
    ProviderResponse.success (some (Json.obj [("translations",
      Json.arr [Json.obj [("text", Json.str "bonjour::")]])]))
  else ProviderResponse.transportErr

/-- C1 failing-input evaluation: translating `[("a", "hello")]` succeeds
and records the pair in the cache under the PATH KEY `"a"` — there is no
entry under the source string `"hello"` — so translating the equal string
at a different path `"b"` afterwards misses the cache and issues a second
provider call (`calls = 1` again) instead of reusing the entry. -/
theorem c1_cache_keyed_by_path :
    (translate_values [("a", "hello")] "::" [] c1Provider =
      Except.ok ⟨[("a", "bonjour")], [("a", "bonjour")], 1⟩) ∧
    lookupKV [("a", "bonjour")] "hello" = none ∧
    (translate_values [("b", "hello")] "::" [("a", "bonjour")] c1Provider =
      Except.ok ⟨[("b", "bonjour")], [("a", "bonjour"), ("b", "bonjour")], 1⟩) :=
  ⟨rfl, rfl, rfl⟩

/-! ## C3: warm-cache rerun is not byte-identical -/

/-- Provider used for the C3 failing input. -/
def c3Provider : Provider := fun t =>
  if t = "b::x::" then
    ProviderResponse.success (some (Json.obj [("translations",
      Json.arr [Json.obj [("text", Json.str "B::X::")]])]))
  else ProviderResponse.transportErr

/-- The C3 failing document: its leaf at path `"a"` has source string
`"b"`, which is also the path key of the second leaf. -/
def c3Doc : Json := Json.obj [("a", Json.str "b"), ("b", Json.str "x")]

/-- C3 failing-input evaluation: the first run (cold cache) translates
`"b"` to `"B"` and `"x"` to `"X"`, caching them under the path keys `"a"`
and `"b"`.  Rerunning the same document with that cache issues zero
provider calls but looks the source string `"b"` up in the cache, hits the
PATH-KEY entry `("b", "X")`, and outputs `"X"` at path `"a"` — the leaves
are not byte-identical to the first run's. -/
theorem c3_warm_cache_rerun_not_identical :
    (translate_values (collect_values c3Doc "") "::" [] c3Provider =
      Except.ok ⟨[("a", "B"), ("b", "X")], [("a", "B"), ("b", "X")], 1⟩) ∧
    (translate_values (collect_values c3Doc "") "::" [("a", "B"), ("b", "X")]
        c3Provider =
      Except.ok ⟨[("a", "X"), ("b", "X")], [("a", "B"), ("b", "X")], 0⟩) ∧
    lookupKV [("a", "X"), ("b", "X")] "a" ≠ lookupKV [("a", "B"), ("b", "X")] "a" :=
  ⟨rfl, rfl, by decide⟩

/-! ## C2 machinery: splitting on the arrow separator -/

/-- Does a character list contain the substring `"->"`? -/
def hasArrow : List Char → Bool
  | [] => false
  | [_] => false
  | c :: c2 :: rest => (c = '-' && c2 = '>') || hasArrow (c2 :: rest)

theorem hasArrow_tail (c : Char) (t : List Char) (h : hasArrow (c :: t) = false) :
    hasArrow t = false := by
  match t with
  | [] => rfl
  | c2 :: t2 =>
    simp only [hasArrow, Bool.or_eq_false_iff] at h
    exact h.2

theorem arrowPrefix_false (c c2 : Char) (r : List Char) (hm : ¬(c = '-' ∧ c2 = '>')) :
    (['-', '>'].isPrefixOf (c :: c2 :: r)) = false := by
  simp only [List.isPrefixOf, Bool.and_true]
  by_cases hc : c = '-'
  · subst hc
    have hc2 : ('>' == c2) = false :=
      beq_eq_false_iff_ne.mpr (fun h => hm ⟨rfl, h.symm⟩)
    simp [hc2]
  · have hc1 : ('-' == c) = false := beq_eq_false_iff_ne.mpr (fun h => hc h.symm)
    simp [hc1]

theorem arrow_not_prefixOf (l : List Char) (h : hasArrow l = false) :
    (['-', '>'].isPrefixOf l) = false := by
  match l with
  | [] => rfl
  | [c] => simp [List.isPrefixOf]
  | c :: c2 :: rest =>
    simp only [hasArrow, Bool.or_eq_false_iff, Bool.and_eq_false_iff,
      decide_eq_false_iff_not] at h
    exact arrowPrefix_false c c2 rest (fun hand => by
      rcases h.1 with h1 | h1
      · exact h1 hand.1
      · exact h1 hand.2)

theorem rustSplitAux_nil_eq (acc : List Char) :
    rustSplitAux ['-', '>'] [] acc 0 = [acc.reverse] :=
  rustSplitAux.eq_1 ['-', '>'] acc 0

theorem rustSplitAux_match_eq (y acc : List Char) :
    rustSplitAux ['-', '>'] ('-' :: '>' :: y) acc 0 =
      acc.reverse :: rustSplitAux ['-', '>'] y [] 0 := by
  rw [rustSplitAux.eq_3]
  norm_num [List.isPrefixOf]
  rw [rustSplitAux.eq_2]

theorem rustSplitAux_skip_eq (c : Char) (rest acc : List Char)
    (h : (['-', '>'].isPrefixOf (c :: rest)) = false) :
    rustSplitAux ['-', '>'] (c :: rest) acc 0 =
      rustSplitAux ['-', '>'] rest (c :: acc) 0 := by
  rw [rustSplitAux.eq_3]
  simp [h]

theorem rustSplitAux_no_arrow :
    ∀ (kd acc : List Char), hasArrow kd = false →
      rustSplitAux ['-', '>'] kd acc 0 = [acc.reverse ++ kd]
  | [], acc, _ => by simp [rustSplitAux_nil_eq]
  | c :: kd, acc, h => by
    rw [rustSplitAux_skip_eq c kd acc (arrow_not_prefixOf (c :: kd) h),
      rustSplitAux_no_arrow kd (c :: acc) (hasArrow_tail c kd h)]
    simp

theorem rustSplitAux_arrow_append :
    ∀ (x y acc : List Char),
      rustSplitAux ['-', '>'] (x ++ '-' :: '>' :: y) acc 0 =
        rustSplitAux ['-', '>'] x acc 0 ++ rustSplitAux ['-', '>'] y [] 0
  | [], y, acc => by
    rw [List.nil_append, rustSplitAux_match_eq, rustSplitAux_nil_eq]
    rfl
  | [c], y, acc => by
    have h1 : (['-', '>'].isPrefixOf (c :: '-' :: '>' :: y)) = false := by
      simp [List.isPrefixOf]
    have h2 : (['-', '>'].isPrefixOf [c]) = false := by
      simp [List.isPrefixOf]
    rw [show ([c] ++ '-' :: '>' :: y) = c :: '-' :: '>' :: y from rfl,
      rustSplitAux_skip_eq c _ acc h1, rustSplitAux_match_eq,
      rustSplitAux_skip_eq c [] acc h2, rustSplitAux_nil_eq]
    rfl
  | c :: c2 :: x, y, acc => by
    by_cases hm : c = '-' ∧ c2 = '>'
    · obtain ⟨rfl, rfl⟩ := hm
      rw [show (('-' :: '>' :: x) ++ '-' :: '>' :: y) = '-' :: '>' :: (x ++ '-' :: '>' :: y)
          from rfl,
        rustSplitAux_match_eq, rustSplitAux_match_eq,
        rustSplitAux_arrow_append x y []]
      simp
    · rw [show ((c :: c2 :: x) ++ '-' :: '>' :: y) = c :: ((c2 :: x) ++ '-' :: '>' :: y)
          from rfl,
        rustSplitAux_skip_eq c _ acc (by
          rw [show ((c2 :: x) ++ '-' :: '>' :: y) = c2 :: (x ++ '-' :: '>' :: y) from rfl]
          exact arrowPrefix_false c c2 _ hm),
        rustSplitAux_skip_eq c (c2 :: x) acc (arrowPrefix_false c c2 x hm),
        rustSplitAux_arrow_append (c2 :: x) y (c :: acc)]

theorem rustSplit_no_arrow (k : String) (h : hasArrow k.data = false) :
    rustSplit "->" k = [k] := by
  unfold rustSplit
  rw [show ("->" : String).data = ['-', '>'] from rfl, rustSplitAux_no_arrow k.data [] h]
  rfl

theorem rustSplit_append_arrow (a b : String) :
    rustSplit "->" (a ++ "->" ++ b) = rustSplit "->" a ++ rustSplit "->" b := by
  unfold rustSplit
  rw [show (a ++ "->" ++ b).data = a.data ++ '-' :: '>' :: b.data by
    simp [String.data_append]]
  rw [show ("->" : String).data = ['-', '>'] from rfl, rustSplitAux_arrow_append,
    List.map_append]

/-! ## C2 machinery: map and insertion lemmas -/

theorem lookupKV_insertKV_self {α : Type} (m : List (String × α)) (k : String) (v : α) :
    lookupKV (insertKV m k v) k = some v := by
  induction m with
  | nil => simp [insertKV, lookupKV]
  | cons kv rest ih =>
    obtain ⟨k2, v2⟩ := kv
    by_cases h : k2 = k
    · simp [insertKV, h, lookupKV]
    · simp [insertKV, h, lookupKV, ih]

theorem lookupKV_insertKV_ne {α : Type} (m : List (String × α)) (k k2 : String) (v : α)
    (h : k ≠ k2) : lookupKV (insertKV m k v) k2 = lookupKV m k2 := by
  induction m with
  | nil => simp [insertKV, lookupKV, h]
  | cons kv rest ih =>
    obtain ⟨k3, v3⟩ := kv
    by_cases h3 : k3 = k
    · subst h3
      simp [insertKV, lookupKV, h]
    · simp only [insertKV, h3, if_false, reduceIte]
      by_cases h4 : k3 = k2 <;> simp [lookupKV, h4, ih]

theorem insertKV_insertKV {α : Type} (m : List (String × α)) (k : String) (v w : α) :
    insertKV (insertKV m k v) k w = insertKV m k w := by
  induction m with
  | nil => simp [insertKV]
  | cons kv rest ih =>
    obtain ⟨k2, v2⟩ := kv
    by_cases h : k2 = k
    · simp [insertKV, h]
    · simp [insertKV, h, ih]

theorem insertKV_of_lookup_none {α : Type} (m : List (String × α)) (k : String) (v : α)
    (h : lookupKV m k = none) : insertKV m k v = m ++ [(k, v)] := by
  induction m with
  | nil => rfl
  | cons kv rest ih =>
    obtain ⟨k2, v2⟩ := kv
    by_cases h2 : k2 = k
    · simp [lookupKV, h2] at h
    · simp only [lookupKV, h2, if_false, reduceIte] at h
      simp [insertKV, h2, ih h]

/-- The `next` target of `insert_into_json`: the existing child object at a
key, or a fresh empty object when the child is missing or not an object. -/
def childObjOf (m : List (String × Json)) (k : String) : List (String × Json) :=
  match lookupKV m k with
  | some (Json.obj m2) => m2
  | _ => []

theorem insert_into_json_cons (m : List (String × Json)) (a b : String)
    (P : List String) (v : Json) :
    insert_into_json m (a :: b :: P) v =
      insertKV m a (Json.obj (insert_into_json (childObjOf m a) (b :: P) v)) := by
  cases h : lookupKV m a with
  | none => simp [insert_into_json, childObjOf, h]
  | some j => cases j <;> simp [insert_into_json, childObjOf, h]

theorem insert_into_json_single (m : List (String × Json)) (a : String) (v : Json) :
    insert_into_json m [a] v = insertKV m a v := rfl

theorem childObjOf_insertKV_obj (m : List (String × Json)) (k : String)
    (u : List (String × Json)) :
    childObjOf (insertKV m k (Json.obj u)) k = u := by
  simp [childObjOf, lookupKV_insertKV_self]

theorem childObjOf_of_lookup_none (m : List (String × Json)) (k : String)
    (h : lookupKV m k = none) : childObjOf m k = [] := by
  simp [childObjOf, h]

/-- Walk down a key path through nested objects, treating a missing or
non-object child as the empty object (the view `insert_into_json` takes). -/
def getObjPath : List (String × Json) → List String → List (String × Json)
  | m, [] => m
  | m, k :: rest => getObjPath (childObjOf m k) rest

theorem getObjPath_append_one (P : List String) (k : String) :
    ∀ m : List (String × Json), getObjPath m (P ++ [k]) = childObjOf (getObjPath m P) k := by
  induction P with
  | nil => intro m; rfl
  | cons a P ih => intro m; simp only [List.cons_append, getObjPath]; exact ih _

theorem getObjPath_insert_self :
    ∀ (P : List String) (a : String) (m u : List (String × Json)),
      getObjPath (insert_into_json m (a :: P) (Json.obj u)) (a :: P) = u
  | [], a, m, u => by
    rw [insert_into_json_single]
    show childObjOf (insertKV m a (Json.obj u)) a = u
    exact childObjOf_insertKV_obj m a u
  | b :: P, a, m, u => by
    rw [insert_into_json_cons]
    show getObjPath (childObjOf (insertKV m a (Json.obj _)) a) (b :: P) = u
    rw [childObjOf_insertKV_obj]
    exact getObjPath_insert_self P b (childObjOf m a) u

theorem insert_into_json_merge :
    ∀ (P : List String) (a : String) (m u : List (String × Json)) (k : String) (c : Json),
      insert_into_json (insert_into_json m (a :: P) (Json.obj u)) ((a :: P) ++ [k]) c =
        insert_into_json m (a :: P) (Json.obj (insertKV u k c))
  | [], a, m, u, k, c => by
    rw [insert_into_json_single, show (([a] : List String) ++ [k]) = a :: k :: [] from rfl,
      insert_into_json_cons, childObjOf_insertKV_obj, insertKV_insertKV,
      insert_into_json_single, insert_into_json_single]
  | b :: P, a, m, u, k, c => by
    rw [show ((a :: b :: P) ++ [k]) = a :: b :: (P ++ [k]) from rfl,
      insert_into_json_cons m a b P (Json.obj u),
      insert_into_json_cons _ a b (P ++ [k]) c,
      childObjOf_insertKV_obj, insertKV_insertKV,
      show (b :: (P ++ [k])) = ((b :: P) ++ [k]) from rfl,
      insert_into_json_merge P b (childObjOf m a) u k c,
      ← insert_into_json_cons m a b P (Json.obj (insertKV u k c))]

theorem insert_into_json_fresh :
    ∀ (P : List String) (a : String) (m : List (String × Json)) (k : String) (c : Json),
      getObjPath m (a :: P) = [] →
      insert_into_json m ((a :: P) ++ [k]) c =
        insert_into_json m (a :: P) (Json.obj [(k, c)])
  | [], a, m, k, c, h => by
    have h2 : childObjOf m a = [] := h
    rw [show (([a] : List String) ++ [k]) = a :: k :: [] from rfl,
      insert_into_json_cons, h2, insert_into_json_single, insert_into_json_single]
    rfl
  | b :: P, a, m, k, c, h => by
    have h2 : getObjPath (childObjOf m a) (b :: P) = [] := h
    rw [show ((a :: b :: P) ++ [k]) = a :: b :: (P ++ [k]) from rfl,
      insert_into_json_cons,
      show (b :: (P ++ [k])) = ((b :: P) ++ [k]) from rfl,
      insert_into_json_fresh P b (childObjOf m a) k c h2,
      ← insert_into_json_cons]

/-! ## C2: well-formed (object-only) documents and the round trip -/

/-- Pairwise-distinct keys (serde maps cannot hold duplicate keys). -/
def nodupKeys : List String → Bool
  | [] => true
  | k :: rest => !rest.contains k && nodupKeys rest

mutual

/-- Documents on which flatten/rebuild round-trip: no arrays, no empty
objects, object keys nonempty, free of the `->` separator, and distinct. -/
def objOnly : Json → Bool
  | Json.obj kvs => !kvs.isEmpty && (nodupKeys (kvs.map Prod.fst) && objOnlyFields kvs)
  | Json.arr _ => false
  | _ => true

/-- Field-list part of `objOnly`. -/
def objOnlyFields : List (String × Json) → Bool
  | [] => true
  | (k, v) :: rest => (k != "") && (!hasArrow k.data && (objOnly v && objOnlyFields rest))

end

mutual

/-- `flatten_json` with path keys kept as key lists instead of
`->`-joined strings. -/
def flattenSteps : Json → List String → List (List String × Json)
  | Json.obj kvs, P => flattenStepsObj kvs P
  | Json.arr _, _ => []
  | v, P => [(P, v)]

/-- Object clause of `flattenSteps`. -/
def flattenStepsObj : List (String × Json) → List String → List (List String × Json)
  | [], _ => []
  | (k, v) :: rest, P => flattenSteps v (P ++ [k]) ++ flattenStepsObj rest P

end

/-- Fold `insert_into_json` over pre-split (key list, value) entries. -/
def processSteps (m : List (String × Json)) (l : List (List String × Json)) :
    List (String × Json) :=
  l.foldl (fun acc kv => insert_into_json acc kv.1 kv.2) m

theorem processSteps_append (m : List (String × Json))
    (A B : List (List String × Json)) :
    processSteps m (A ++ B) = processSteps (processSteps m A) B :=
  List.foldl_append _ _ _ _

theorem not_mem_of_contains_false (l : List String) (k : String)
    (h : l.contains k = false) : k ∉ l := by
  simpa using h

theorem objOnlyFields_parts (k : String) (c : Json) (rest : List (String × Json))
    (h : objOnlyFields ((k, c) :: rest) = true) :
    k ≠ "" ∧ hasArrow k.data = false ∧ objOnly c = true ∧ objOnlyFields rest = true := by
  simp only [objOnlyFields, Bool.and_eq_true, bne_iff_ne] at h
  refine ⟨h.1, ?_, h.2.2.1, h.2.2.2⟩
  have := h.2.1
  revert this
  cases hasArrow k.data <;> simp

theorem nodupKeys_parts (k : String) (ks : List String)
    (h : nodupKeys (k :: ks) = true) : k ∉ ks ∧ nodupKeys ks = true := by
  simp only [nodupKeys, Bool.and_eq_true] at h
  refine ⟨?_, h.2⟩
  have := h.1
  revert this
  cases hc : ks.contains k
  · intro _; exact not_mem_of_contains_false ks k hc
  · simp

mutual

theorem processSteps_subtree :
    ∀ (c : Json) (a : String) (P : List String) (m : List (String × Json)),
      objOnly c = true → getObjPath m (a :: P) = [] →
      processSteps m (flattenSteps c (a :: P)) = insert_into_json m (a :: P) c
  | Json.str s, a, P, m, _, _ => by simp [flattenSteps, processSteps]
  | Json.num n, a, P, m, _, _ => by simp [flattenSteps, processSteps]
  | Json.bool b, a, P, m, _, _ => by simp [flattenSteps, processSteps]
  | Json.null, a, P, m, _, _ => by simp [flattenSteps, processSteps]
  | Json.arr xs, a, P, m, hgood, _ => by simp [objOnly] at hgood
  | Json.obj kvs, a, P, m, hgood, hpath => by
    simp only [objOnly, Bool.and_eq_true] at hgood
    obtain ⟨hne, hnd, hf⟩ := hgood
    match kvs, hne, hnd, hf with
    | [], hne, _, _ => simp at hne
    | (k, c) :: rest, _, hnd, hf =>
      obtain ⟨hk, harrow, hc, hrest⟩ := objOnlyFields_parts k c rest hf
      obtain ⟨hknotin, hndrest⟩ := nodupKeys_parts k (rest.map Prod.fst) (by simpa using hnd)
      show processSteps m (flattenSteps c ((a :: P) ++ [k]) ++
          flattenStepsObj rest (a :: P)) = _
      rw [processSteps_append]
      have hpath2 : getObjPath m ((a :: P) ++ [k]) = [] := by
        rw [getObjPath_append_one, hpath]
        rfl
      rw [show ((a :: P) ++ [k]) = a :: (P ++ [k]) from rfl] at hpath2
      rw [show (flattenSteps c ((a :: P) ++ [k])) = flattenSteps c (a :: (P ++ [k]))
          from rfl,
        processSteps_subtree c a (P ++ [k]) m hc hpath2,
        show (a :: (P ++ [k])) = ((a :: P) ++ [k]) from rfl,
        insert_into_json_fresh P a m k c hpath,
        processSteps_fields rest a P m [(k, c)] hrest
          (fun k2 hk2 => by
            have hne2 : k2 ≠ k := fun he => hknotin (he ▸ hk2)
            simp [lookupKV, (Ne.symm hne2)])
          hndrest]
      rfl

theorem processSteps_fields :
    ∀ (kvs : List (String × Json)) (a : String) (P : List String)
      (m u : List (String × Json)),
      objOnlyFields kvs = true →
      (∀ k2 ∈ kvs.map Prod.fst, lookupKV u k2 = none) →
      nodupKeys (kvs.map Prod.fst) = true →
      processSteps (insert_into_json m (a :: P) (Json.obj u))
          (flattenStepsObj kvs (a :: P)) =
        insert_into_json m (a :: P) (Json.obj (u ++ kvs))
  | [], a, P, m, u, _, _, _ => by simp [flattenStepsObj, processSteps]
  | (k, c) :: rest, a, P, m, u, hf, hfresh, hnd => by
    obtain ⟨hk, harrow, hc, hrest⟩ := objOnlyFields_parts k c rest hf
    obtain ⟨hknotin, hndrest⟩ := nodupKeys_parts k (rest.map Prod.fst) (by simpa using hnd)
    have hfreshk : lookupKV u k = none := hfresh k (by simp)
    show processSteps _ (flattenSteps c ((a :: P) ++ [k]) ++
        flattenStepsObj rest (a :: P)) = _
    rw [processSteps_append]
    have hpath2 : getObjPath (insert_into_json m (a :: P) (Json.obj u))
        (a :: (P ++ [k])) = [] := by
      rw [show (a :: (P ++ [k])) = ((a :: P) ++ [k]) from rfl, getObjPath_append_one,
        getObjPath_insert_self]
      exact childObjOf_of_lookup_none u k hfreshk
    rw [show (flattenSteps c ((a :: P) ++ [k])) = flattenSteps c (a :: (P ++ [k]))
        from rfl,
      processSteps_subtree c a (P ++ [k]) _ hc hpath2,
      show (a :: (P ++ [k])) = ((a :: P) ++ [k]) from rfl,
      insert_into_json_merge P a m u k c,
      insertKV_of_lookup_none u k c hfreshk,
      processSteps_fields rest a P m (u ++ [(k, c)]) hrest
        (fun k2 hk2 => by
          have hne2 : k ≠ k2 := fun he => hknotin (he ▸ hk2)
          rw [← insertKV_of_lookup_none u k c hfreshk,
            lookupKV_insertKV_ne u k k2 c hne2]
          exact hfresh k2 (by simp [hk2]))
        hndrest]
    rw [List.append_assoc]
    rfl

end

mutual

theorem flatten_map_split :
    ∀ (c : Json) (p : String), objOnly c = true → p ≠ "" →
      (flatten_json c p).map (fun kv => (rustSplit "->" kv.1, kv.2)) =
        flattenSteps c (rustSplit "->" p)
  | Json.str s, p, _, _ => by simp [flatten_json, flattenSteps]
  | Json.num n, p, _, _ => by simp [flatten_json, flattenSteps]
  | Json.bool b, p, _, _ => by simp [flatten_json, flattenSteps]
  | Json.null, p, _, _ => by simp [flatten_json, flattenSteps]
  | Json.arr xs, p, hgood, _ => by simp [objOnly] at hgood
  | Json.obj kvs, p, hgood, hp => by
    simp only [objOnly, Bool.and_eq_true] at hgood
    show (flattenObj kvs p).map (fun kv => (rustSplit "->" kv.1, kv.2)) =
      flattenStepsObj kvs (rustSplit "->" p)
    exact flattenObj_map_split kvs p hgood.2.2 hp

theorem flattenObj_map_split :
    ∀ (kvs : List (String × Json)) (p : String), objOnlyFields kvs = true → p ≠ "" →
      (flattenObj kvs p).map (fun kv => (rustSplit "->" kv.1, kv.2)) =
        flattenStepsObj kvs (rustSplit "->" p)
  | [], p, _, _ => rfl
  | (k, c) :: rest, p, hf, hp => by
    obtain ⟨hk, harrow, hc, hrest⟩ := objOnlyFields_parts k c rest hf
    simp only [flattenObj, flattenStepsObj, List.map_append]
    have hext : extendKey p k = p ++ "->" ++ k := by simp [extendKey, hp]
    rw [hext, flatten_map_split c (p ++ "->" ++ k) hc
        (str_append_ne_empty (p ++ "->") k hk),
      rustSplit_append_arrow, rustSplit_no_arrow k harrow,
      flattenObj_map_split rest p hrest hp]

end

theorem flattenObj_map_split_root :
    ∀ kvs : List (String × Json), objOnlyFields kvs = true →
      (flattenObj kvs "").map (fun kv => (rustSplit "->" kv.1, kv.2)) =
        flattenStepsObj kvs []
  | [], _ => rfl
  | (k, c) :: rest, hf => by
    obtain ⟨hk, harrow, hc, hrest⟩ := objOnlyFields_parts k c rest hf
    simp only [flattenObj, flattenStepsObj, List.map_append]
    have hext : extendKey "" k = k := by simp [extendKey]
    rw [hext, flatten_map_split c k hc hk, rustSplit_no_arrow k harrow,
      flattenObj_map_split_root rest hrest]
    rfl

theorem processSteps_top :
    ∀ (kvs : List (String × Json)) (u : List (String × Json)),
      objOnlyFields kvs = true →
      (∀ k2 ∈ kvs.map Prod.fst, lookupKV u k2 = none) →
      nodupKeys (kvs.map Prod.fst) = true →
      processSteps u (flattenStepsObj kvs []) = u ++ kvs
  | [], u, _, _, _ => by simp [flattenStepsObj, processSteps]
  | (k, c) :: rest, u, hf, hfresh, hnd => by
    obtain ⟨hk, harrow, hc, hrest⟩ := objOnlyFields_parts k c rest hf
    obtain ⟨hknotin, hndrest⟩ := nodupKeys_parts k (rest.map Prod.fst) (by simpa using hnd)
    have hfreshk : lookupKV u k = none := hfresh k (by simp)
    show processSteps u (flattenSteps c ([] ++ [k]) ++ flattenStepsObj rest []) = _
    rw [processSteps_append,
      show (([] : List String) ++ [k]) = k :: ([] : List String) from rfl,
      processSteps_subtree c k [] u hc
        (show childObjOf u k = [] from childObjOf_of_lookup_none u k hfreshk),
      insert_into_json_single, insertKV_of_lookup_none u k c hfreshk,
      processSteps_top rest (u ++ [(k, c)]) hrest
        (fun k2 hk2 => by
          have hne2 : k ≠ k2 := fun he => hknotin (he ▸ hk2)
          rw [← insertKV_of_lookup_none u k c hfreshk,
            lookupKV_insertKV_ne u k k2 c hne2]
          exact hfresh k2 (by simp [hk2]))
        hndrest]
    simp

/-- Root form of the round-trip condition: the document root is an object
and the whole tree is `objOnly`. -/
def rootObjOnly : Json → Bool
  | Json.obj kvs => objOnly (Json.obj kvs)
  | _ => false

/-- C2 (amended): for documents whose root is an object, that contain no
arrays and no empty objects, and all of whose object keys are nonempty,
free of `->`, and duplicate-free, rebuilding the flattened mapping (with no
translations applied) reproduces the document exactly — same key sets,
same nesting, same leaf values. -/
theorem c2_round_trip_shape (d : Json) (hgood : rootObjOnly d = true) :
    rebuild_json (flatten_json d "") = d := by
  match d, hgood with
  | Json.obj kvs, hgood =>
    simp only [rootObjOnly, objOnly, Bool.and_eq_true] at hgood
    obtain ⟨hne, hnd, hf⟩ := hgood
    show Json.obj ((flattenObj kvs "").foldl
      (fun m kv => insert_into_json m (rustSplit "->" kv.1) kv.2) []) = Json.obj kvs
    have hfold : (flattenObj kvs "").foldl
        (fun m kv => insert_into_json m (rustSplit "->" kv.1) kv.2) [] =
        processSteps [] ((flattenObj kvs "").map (fun kv => (rustSplit "->" kv.1, kv.2))) := by
      rw [processSteps, List.foldl_map]
    rw [hfold, flattenObj_map_split_root kvs hf,
      processSteps_top kvs [] hf (fun k2 _ => rfl) hnd, List.nil_append]

/-- A well-formed nested document for the C2 witness. -/
def c2WitnessDoc : Json :=
  Json.obj [("a", Json.obj [("b", Json.str "x"), ("c", Json.num 1)]), ("d", Json.str "y")]

theorem c2_round_trip_shape_witness :
    rebuild_json (flatten_json c2WitnessDoc "") = c2WitnessDoc :=
  c2_round_trip_shape c2WitnessDoc (by decide)

/-- C2 counterexample: the claim's own example `{"items": ["red", "blue"]}`
does NOT rebuild to a 2-element array at `items` — `rebuild_json` splits
keys only on `->` and never reconstructs arrays, so the rebuilt tree is an
object with the two bracket-keys, a different shape than the input. -/
theorem c2_array_not_rebuilt :
    rebuild_json (flatten_json
        (Json.obj [("items", Json.arr [Json.str "red", Json.str "blue"])]) "") =
      Json.obj [("items[0]", Json.str "red"), ("items[1]", Json.str "blue")] ∧
    Json.obj [("items[0]", Json.str "red"), ("items[1]", Json.str "blue")] ≠
      Json.obj [("items", Json.arr [Json.str "red", Json.str "blue"])] :=
  ⟨rfl, by decide⟩

/-! ## C4 machinery: shapes of flattened path keys -/

theorem str_append_ne_empty_left (a b : String) (ha : a ≠ "") : a ++ b ≠ "" := by
  intro h
  apply ha
  have hd : a.data ++ b.data = [] := by
    have := congrArg String.data h
    simpa [String.data_append] using this
  have : a.data = [] := (List.append_eq_nil.mp hd).1
  cases a
  simp_all

/-- The possible continuations of a path key past a node's own prefix:
nothing (the node is the leaf), an object descent `->…`, or an array
descent `[…`. -/
def TailShape (S : List Char) : Prop :=
  S = [] ∨ (∃ t, S = '-' :: '>' :: t) ∨ ∃ t, S = '[' :: t

theorem tail_cons_absurd (k2 : List Char) (S1 S2 : List Char)
    (harrow : hasArrow k2 = false) (hbr : '[' ∉ k2)
    (hS1 : TailShape S1) (hS2 : TailShape S2) (heq : S1 = k2 ++ S2) : k2 = [] := by
  match k2, heq with
  | [], _ => rfl
  | c :: k2t, heq =>
    exfalso
    rcases hS1 with h1 | ⟨t, h1⟩ | ⟨t, h1⟩
    · rw [h1] at heq
      cases heq
    · rw [h1] at heq
      match k2t, heq with
      | [], heq =>
        have hc : S2 = '>' :: t := by
          have := heq.symm
          simp only [List.cons_append, List.nil_append, List.cons.injEq] at this
          exact this.2
        rcases hS2 with h2 | ⟨t2, h2⟩ | ⟨t2, h2⟩ <;> rw [h2] at hc <;> cases hc
      | c2 :: k2t2, heq =>
        simp only [List.cons_append, List.cons.injEq] at heq
        obtain ⟨hc, hc2, _⟩ := heq
        subst hc
        subst hc2
        simp [hasArrow] at harrow
    · rw [h1] at heq
      have hc : c = '[' := by
        have := heq.symm
        simp only [List.cons_append, List.cons.injEq] at this
        exact this.1
      subst hc
      exact hbr (by simp)

theorem key_append_tail_inj :
    ∀ (k1 k2 S1 S2 : List Char),
      hasArrow k1 = false → '[' ∉ k1 → hasArrow k2 = false → '[' ∉ k2 →
      TailShape S1 → TailShape S2 → k1 ++ S1 = k2 ++ S2 → k1 = k2
  | [], k2, S1, S2, _, _, ha2, hb2, hS1, hS2, heq => by
    rw [List.nil_append] at heq
    exact (tail_cons_absurd k2 S1 S2 ha2 hb2 hS1 hS2 heq).symm
  | c1 :: k1, [], S1, S2, ha1, hb1, _, _, hS1, hS2, heq => by
    rw [List.nil_append] at heq
    exact tail_cons_absurd (c1 :: k1) S2 S1 ha1 hb1 hS2 hS1 heq.symm
  | c1 :: k1, c2 :: k2, S1, S2, ha1, hb1, ha2, hb2, hS1, hS2, heq => by
    simp only [List.cons_append, List.cons.injEq] at heq
    obtain ⟨hc, htail⟩ := heq
    subst hc
    rw [key_append_tail_inj k1 k2 S1 S2 (hasArrow_tail c1 k1 ha1)
      (fun h => hb1 (List.mem_cons_of_mem c1 h)) (hasArrow_tail c1 k2 ha2)
      (fun h => hb2 (List.mem_cons_of_mem c1 h)) hS1 hS2 htail]

/-! ## C4 machinery: decimal rendering of array indices -/

/-- The digit list of `n` in base 10 (most significant first), mirroring
what `Nat.toDigitsCore` accumulates. -/
def decDigits (n : Nat) : List Char :=
  if n < 10 then [Nat.digitChar n]
  else decDigits (n / 10) ++ [Nat.digitChar (n % 10)]
  decreasing_by exact Nat.div_lt_self (by omega) (by omega)

theorem toDigitsCore_eq_decDigits :
    ∀ (fuel n : Nat) (acc : List Char), n ≤ fuel →
      Nat.toDigitsCore 10 (fuel + 1) n acc = decDigits n ++ acc := by
  intro fuel
  induction fuel with
  | zero =>
    intro n acc hn
    have h0 : n = 0 := by omega
    subst h0
    rw [decDigits]
    rfl
  | succ fuel ih =>
    intro n acc hn
    show (if n / 10 = 0 then Nat.digitChar (n % 10) :: acc
      else Nat.toDigitsCore 10 (fuel + 1) (n / 10) (Nat.digitChar (n % 10) :: acc)) =
      decDigits n ++ acc
    by_cases h10 : n < 10
    · rw [if_pos (by omega), decDigits, if_pos h10, Nat.mod_eq_of_lt h10]
      rfl
    · rw [if_neg (by omega), ih (n / 10) (Nat.digitChar (n % 10) :: acc) (by omega)]
      nth_rewrite 2 [decDigits]
      rw [if_neg h10]
      simp [List.append_assoc]

theorem repr_data_eq_decDigits (n : Nat) : (Nat.repr n).data = decDigits n := by
  show (Nat.toDigits 10 n).asString.data = decDigits n
  rw [show Nat.toDigits 10 n = Nat.toDigitsCore 10 (n + 1) n [] from rfl,
    toDigitsCore_eq_decDigits n n [] (Nat.le_refl n)]
  simp [List.asString]

theorem digitChar_ne_rbracket : ∀ d : Nat, d < 10 → Nat.digitChar d ≠ ']' := by
  decide

theorem digitChar_inj_lt : ∀ a : Nat, a < 10 → ∀ b : Nat, b < 10 →
    Nat.digitChar a = Nat.digitChar b → a = b := by
  decide

theorem rbracket_not_mem_decDigits (n : Nat) : ']' ∉ decDigits n := by
  induction n using Nat.strong_induction_on with
  | _ n ih =>
    rw [decDigits]
    by_cases h10 : n < 10
    · rw [if_pos h10]
      simp only [List.mem_singleton]
      exact fun h => digitChar_ne_rbracket n h10 h.symm
    · rw [if_neg h10]
      simp only [List.mem_append, List.mem_singleton]
      rintro (h | h)
      · exact ih (n / 10) (Nat.div_lt_self (by omega) (by omega)) h
      · exact digitChar_ne_rbracket (n % 10) (Nat.mod_lt n (by omega)) h.symm

theorem decDigits_length_pos (n : Nat) : 0 < (decDigits n).length := by
  rw [decDigits]
  by_cases h10 : n < 10 <;> simp [h10]

theorem decDigits_inj : ∀ n : Nat, ∀ m : Nat, decDigits m = decDigits n → m = n := by
  intro n
  induction n using Nat.strong_induction_on with
  | _ n ih =>
    intro m heq
    by_cases hm : m < 10 <;> by_cases hn : n < 10
    · rw [decDigits, if_pos hm, decDigits, if_pos hn] at heq
      exact digitChar_inj_lt m hm n hn (by simpa using heq)
    · rw [decDigits, if_pos hm, decDigits, if_neg hn] at heq
      have hlen := congrArg List.length heq
      simp only [List.length_singleton, List.length_append] at hlen
      have := decDigits_length_pos (n / 10)
      omega
    · rw [decDigits, if_neg hm] at heq
      nth_rewrite 2 [decDigits] at heq
      rw [if_pos hn] at heq
      have hlen := congrArg List.length heq
      simp only [List.length_singleton, List.length_append] at hlen
      have := decDigits_length_pos (m / 10)
      omega
    · rw [decDigits, if_neg hm] at heq
      nth_rewrite 2 [decDigits] at heq
      rw [if_neg hn] at heq
      have hparts := List.append_inj' heq rfl
      have hdiv : m / 10 = n / 10 :=
        ih (n / 10) (Nat.div_lt_self (by omega) (by omega)) (m / 10) hparts.1
      have hmod : m % 10 = n % 10 :=
        digitChar_inj_lt (m % 10) (Nat.mod_lt m (by omega)) (n % 10)
          (Nat.mod_lt n (by omega)) (by simpa using hparts.2)
      omega

theorem digits_rbracket_inj :
    ∀ (a : List Char), ']' ∉ a → ∀ (b S1 S2 : List Char), ']' ∉ b →
      a ++ ']' :: S1 = b ++ ']' :: S2 → a = b
  | [], _, [], _, _, _, _ => rfl
  | [], _, c :: b, S1, S2, hb, heq => by
    rw [List.nil_append] at heq
    rw [List.cons_append] at heq
    cases heq
    exact absurd (by simp) hb
  | c :: a, ha, [], S1, S2, _, heq => by
    rw [List.nil_append] at heq
    rw [List.cons_append] at heq
    cases heq
    exact absurd (by simp) ha
  | c :: a, ha, c2 :: b, S1, S2, hb, heq => by
    simp only [List.cons_append, List.cons.injEq] at heq
    rw [heq.1, digits_rbracket_inj a (fun h => ha (List.mem_cons_of_mem c h)) b S1 S2
      (fun h => hb (List.mem_cons_of_mem c2 h)) heq.2]

/-! ## C4: good documents and key shapes -/

/-- A safe object key: nonempty, no `->` substring, no `[` character. -/
def goodKeyB (k : String) : Bool :=
  (k != "") && (!hasArrow k.data && !k.data.contains '[')

mutual

/-- Documents whose flattened path keys are provably distinct: object keys
are `goodKeyB` and duplicate-free; arrays are unrestricted. -/
def goodDoc : Json → Bool
  | Json.obj kvs => nodupKeys (kvs.map Prod.fst) && goodFields kvs
  | Json.arr xs => goodElems xs
  | _ => true

/-- Field-list part of `goodDoc`. -/
def goodFields : List (String × Json) → Bool
  | [] => true
  | (k, v) :: rest => goodKeyB k && (goodDoc v && goodFields rest)

/-- Element-list part of `goodDoc`. -/
def goodElems : List Json → Bool
  | [] => true
  | v :: rest => goodDoc v && goodElems rest

end

theorem goodKeyB_parts (k : String) (h : goodKeyB k = true) :
    k ≠ "" ∧ hasArrow k.data = false ∧ '[' ∉ k.data := by
  simp only [goodKeyB, Bool.and_eq_true, bne_iff_ne] at h
  refine ⟨h.1, ?_, ?_⟩
  · have h2 := h.2.1
    revert h2
    cases hasArrow k.data <;> simp
  · have h2 := h.2.2
    have hc : k.data.contains '[' = false := by
      revert h2
      cases k.data.contains '[' <;> simp
    simpa using hc

theorem flattenObj_mem_decomp :
    ∀ (kvs : List (String × Json)) (q : String) (K : String),
      K ∈ (flattenObj kvs q).map Prod.fst →
      ∃ k c, (k, c) ∈ kvs ∧ K ∈ (flatten_json c (extendKey q k)).map Prod.fst
  | [], q, K, h => by simp [flattenObj] at h
  | (k, c) :: rest, q, K, h => by
    simp only [flattenObj, List.map_append, List.mem_append] at h
    rcases h with h | h
    · exact ⟨k, c, by simp, h⟩
    · obtain ⟨k2, c2, hmem, hK⟩ := flattenObj_mem_decomp rest q K h
      exact ⟨k2, c2, by simp [hmem], hK⟩

mutual

theorem flatten_key_shape :
    ∀ (c : Json) (q : String) (K : String), q ≠ "" →
      K ∈ (flatten_json c q).map Prod.fst →
      ∃ S, K.data = q.data ++ S ∧ TailShape S
  | Json.str s, q, K, _, h => by
    simp only [flatten_json, List.map_cons, List.map_nil, List.mem_singleton] at h
    exact ⟨[], by simp [h], Or.inl rfl⟩
  | Json.num n, q, K, _, h => by
    simp only [flatten_json, List.map_cons, List.map_nil, List.mem_singleton] at h
    exact ⟨[], by simp [h], Or.inl rfl⟩
  | Json.bool b, q, K, _, h => by
    simp only [flatten_json, List.map_cons, List.map_nil, List.mem_singleton] at h
    exact ⟨[], by simp [h], Or.inl rfl⟩
  | Json.null, q, K, _, h => by
    simp only [flatten_json, List.map_cons, List.map_nil, List.mem_singleton] at h
    exact ⟨[], by simp [h], Or.inl rfl⟩
  | Json.obj kvs, q, K, hq, h => flattenObj_key_shape kvs q K hq h
  | Json.arr xs, q, K, hq, h => by
    obtain ⟨j, S, hS, _⟩ := flattenArr_key_shape xs 0 q K h
    exact ⟨'[' :: ((Nat.repr (0 + j)).data ++ ']' :: S), hS, Or.inr (Or.inr ⟨_, rfl⟩)⟩

theorem flattenObj_key_shape :
    ∀ (kvs : List (String × Json)) (q : String) (K : String), q ≠ "" →
      K ∈ (flattenObj kvs q).map Prod.fst →
      ∃ S, K.data = q.data ++ S ∧ TailShape S
  | [], q, K, _, h => by simp [flattenObj] at h
  | (k, c) :: rest, q, K, hq, h => by
    simp only [flattenObj, List.map_append, List.mem_append] at h
    rcases h with h | h
    · have hqk : extendKey q k ≠ "" :=
        fun he => by
          rw [extendKey, if_neg hq] at he
          exact str_append_ne_empty_left (q ++ "->") k
            (str_append_ne_empty_left q "->" hq) he
      obtain ⟨S', hS', _⟩ := flatten_key_shape c (extendKey q k) K hqk h
      refine ⟨'-' :: '>' :: (k.data ++ S'), ?_, Or.inr (Or.inl ⟨_, rfl⟩)⟩
      rw [hS', extendKey, if_neg hq]
      rw [String.data_append, String.data_append,
        show ("->" : String).data = ['-', '>'] from rfl]
      simp [List.append_assoc]
    · exact flattenObj_key_shape rest q K hq h

theorem flattenArr_key_shape :
    ∀ (xs : List Json) (i : Nat) (q : String) (K : String),
      K ∈ (flattenArr xs i q).map Prod.fst →
      ∃ j S, K.data = q.data ++ '[' :: ((Nat.repr (i + j)).data ++ ']' :: S) ∧
        TailShape S
  | [], i, q, K, h => by simp [flattenArr] at h
  | v :: rest, i, q, K, h => by
    simp only [flattenArr, List.map_append, List.mem_append] at h
    rcases h with h | h
    · have hne : q ++ "[" ++ Nat.repr i ++ "]" ≠ "" :=
        str_append_ne_empty (q ++ "[" ++ Nat.repr i) "]" (by decide)
      obtain ⟨S', hS', hT⟩ := flatten_key_shape v (q ++ "[" ++ Nat.repr i ++ "]") K hne h
      refine ⟨0, S', ?_, hT⟩
      rw [hS', Nat.add_zero]
      rw [String.data_append, String.data_append, String.data_append,
        show ("[" : String).data = ['['] from rfl,
        show ("]" : String).data = [']'] from rfl]
      simp [List.append_assoc]
    · obtain ⟨j, S', hS', hT⟩ := flattenArr_key_shape rest (i + 1) q K h
      exact ⟨j + 1, S', by rw [show i + (j + 1) = (i + 1) + j from by omega]; exact hS', hT⟩

end

/-! ## C4: distinctness of flattened path keys -/

theorem goodFields_parts (k : String) (c : Json) (rest : List (String × Json))
    (h : goodFields ((k, c) :: rest) = true) :
    goodKeyB k = true ∧ goodDoc c = true ∧ goodFields rest = true := by
  simpa only [goodFields, Bool.and_eq_true] using h

theorem goodElems_parts (v : Json) (rest : List Json)
    (h : goodElems (v :: rest) = true) :
    goodDoc v = true ∧ goodElems rest = true := by
  simpa only [goodElems, Bool.and_eq_true] using h

theorem goodFields_mem_key :
    ∀ (kvs : List (String × Json)) (k : String) (c : Json),
      (k, c) ∈ kvs → goodFields kvs = true → goodKeyB k = true
  | [], k, c, hmem, _ => by cases hmem
  | (k2, c2) :: rest, k, c, hmem, h => by
    obtain ⟨hk2, _, hrest⟩ := goodFields_parts k2 c2 rest h
    rcases List.mem_cons.mp hmem with heq | hmem2
    · cases heq
      exact hk2
    · exact goodFields_mem_key rest k c hmem2 hrest

theorem extendKey_ne_empty (q k : String) (hk : k ≠ "") : extendKey q k ≠ "" := by
  rw [extendKey]
  by_cases hq : q = ""
  · simpa [hq] using hk
  · rw [if_neg hq]
    exact str_append_ne_empty (q ++ "->") k hk

theorem extendKey_cancel (q k k2 : String) (S1 S2 : List Char)
    (h : (extendKey q k).data ++ S1 = (extendKey q k2).data ++ S2) :
    k.data ++ S1 = k2.data ++ S2 := by
  by_cases hq : q = ""
  · subst hq
    simpa [extendKey] using h
  · rw [extendKey, if_neg hq, extendKey, if_neg hq, String.data_append,
      String.data_append, String.data_append, String.data_append,
      show ("->" : String).data = ['-', '>'] from rfl] at h
    simp only [List.append_assoc, List.cons_append, List.nil_append] at h
    have h2 := List.append_cancel_left h
    simpa using h2

mutual

theorem flatten_keys_nodup :
    ∀ (c : Json) (q : String), goodDoc c = true →
      ((flatten_json c q).map Prod.fst).Nodup
  | Json.str s, q, _ => by simp [flatten_json]
  | Json.num n, q, _ => by simp [flatten_json]
  | Json.bool b, q, _ => by simp [flatten_json]
  | Json.null, q, _ => by simp [flatten_json]
  | Json.obj kvs, q, h => by
    simp only [goodDoc, Bool.and_eq_true] at h
    exact flattenObj_keys_nodup kvs q h.2 h.1
  | Json.arr xs, q, h => by
    simp only [goodDoc] at h
    exact flattenArr_keys_nodup xs 0 q h

theorem flattenObj_keys_nodup :
    ∀ (kvs : List (String × Json)) (q : String), goodFields kvs = true →
      nodupKeys (kvs.map Prod.fst) = true →
      ((flattenObj kvs q).map Prod.fst).Nodup
  | [], q, _, _ => by simp [flattenObj]
  | (k, c) :: rest, q, hf, hnd => by
    obtain ⟨hgk, hgc, hgrest⟩ := goodFields_parts k c rest hf
    obtain ⟨hknotin, hndrest⟩ := nodupKeys_parts k (rest.map Prod.fst) (by simpa using hnd)
    obtain ⟨hkne, hkarrow, hkbr⟩ := goodKeyB_parts k hgk
    simp only [flattenObj, List.map_append]
    rw [List.nodup_append]
    refine ⟨flatten_keys_nodup c (extendKey q k) hgc,
      flattenObj_keys_nodup rest q hgrest hndrest, ?_⟩
    intro K hK1 hK2
    obtain ⟨k2, c2, hk2mem, hK2b⟩ := flattenObj_mem_decomp rest q K hK2
    obtain ⟨hk2ne, hk2arrow, hk2br⟩ :=
      goodKeyB_parts k2 (goodFields_mem_key rest k2 c2 hk2mem hgrest)
    obtain ⟨S1, hS1, hT1⟩ :=
      flatten_key_shape c (extendKey q k) K (extendKey_ne_empty q k hkne) hK1
    obtain ⟨S2, hS2, hT2⟩ :=
      flatten_key_shape c2 (extendKey q k2) K (extendKey_ne_empty q k2 hk2ne) hK2b
    have hcat : (extendKey q k).data ++ S1 = (extendKey q k2).data ++ S2 := by
      rw [← hS1, ← hS2]
    have hk12 := key_append_tail_inj k.data k2.data S1 S2 hkarrow hkbr hk2arrow hk2br
      hT1 hT2 (extendKey_cancel q k k2 S1 S2 hcat)
    have hkk2 : k = k2 := by
      cases k
      cases k2
      exact congrArg String.mk hk12
    subst hkk2
    exact hknotin (List.mem_map.mpr ⟨(k, c2), hk2mem, rfl⟩)

theorem flattenArr_keys_nodup :
    ∀ (xs : List Json) (i : Nat) (q : String), goodElems xs = true →
      ((flattenArr xs i q).map Prod.fst).Nodup
  | [], i, q, _ => by simp [flattenArr]
  | v :: rest, i, q, hg => by
    obtain ⟨hgv, hgrest⟩ := goodElems_parts v rest hg
    simp only [flattenArr, List.map_append]
    rw [List.nodup_append]
    refine ⟨flatten_keys_nodup v (q ++ "[" ++ Nat.repr i ++ "]") hgv,
      flattenArr_keys_nodup rest (i + 1) q hgrest, ?_⟩
    intro K hK1 hK2
    have hne : q ++ "[" ++ Nat.repr i ++ "]" ≠ "" :=
      str_append_ne_empty (q ++ "[" ++ Nat.repr i) "]" (by decide)
    obtain ⟨S1, hS1, hT1⟩ :=
      flatten_key_shape v (q ++ "[" ++ Nat.repr i ++ "]") K hne hK1
    obtain ⟨j, S2, hS2, hT2⟩ := flattenArr_key_shape rest (i + 1) q K hK2
    have hS1b : K.data = q.data ++ '[' :: ((Nat.repr i).data ++ ']' :: S1) := by
      rw [hS1, String.data_append, String.data_append, String.data_append,
        show ("[" : String).data = ['['] from rfl,
        show ("]" : String).data = [']'] from rfl]
      simp [List.append_assoc]
    have hcat0 := hS1b.symm.trans hS2
    have hcat1 := List.append_cancel_left hcat0
    have hcat : (Nat.repr i).data ++ ']' :: S1 =
        (Nat.repr (i + 1 + j)).data ++ ']' :: S2 := by
      simpa using hcat1
    have hdig := digits_rbracket_inj (Nat.repr i).data
      (by rw [repr_data_eq_decDigits]; exact rbracket_not_mem_decDigits i)
      (Nat.repr (i + 1 + j)).data S1 S2
      (by rw [repr_data_eq_decDigits]; exact rbracket_not_mem_decDigits (i + 1 + j))
      hcat
    have heqn : i = i + 1 + j := by
      have hdd : decDigits i = decDigits (i + 1 + j) := by
        rw [← repr_data_eq_decDigits, ← repr_data_eq_decDigits, hdig]
      exact decDigits_inj (i + 1 + j) i hdd
    omega

end

/-- C4 (amended): for every JSON document all of whose object keys are
nonempty, contain neither the substring `->` nor the character `[`, and are
duplicate-free within each object, the path keys computed by the flattener
for distinct leaves are distinct strings. -/
theorem c4_path_key_injective (d : Json) (hgood : goodDoc d = true) :
    ((flatten_json d "").map Prod.fst).Nodup :=
  flatten_keys_nodup d "" hgood

/-- A document exercising objects, arrays, and nesting for the C4 witness. -/
def c4WitnessDoc : Json :=
  Json.obj [("a", Json.arr [Json.str "x", Json.obj [("b", Json.str "y")]]),
    ("c", Json.str "z")]

theorem c4_path_key_injective_witness :
    ((flatten_json c4WitnessDoc "").map Prod.fst).Nodup :=
  c4_path_key_injective c4WitnessDoc (by decide)

/-- C4 counterexample: in `{"a->b": "x", "a": {"b": "y"}}` the two distinct
leaves both get the path key `"a->b"`, so the flattener's path keys are not
injective for arbitrary documents. -/
theorem c4_arrow_key_collision :
    (flatten_json (Json.obj [("a->b", Json.str "x"),
        ("a", Json.obj [("b", Json.str "y")])]) "").map Prod.fst =
      ["a->b", "a->b"] ∧
    ¬ ((flatten_json (Json.obj [("a->b", Json.str "x"),
        ("a", Json.obj [("b", Json.str "y")])]) "").map Prod.fst).Nodup :=
  ⟨rfl, by decide⟩
